import Mathlib

/-!
Verification development for the GRAE repository (geometry-regularized
autoencoder). The definitions below are shallow embeddings of:

* `grae/models/grae_models.py` — `AE` (training loop with early stopping and
  checkpointing), `GRAEBase` (geometric loss, lambda relaxation hook);
* `src/src/models/models.py` — `AE` / `GRAE` (sum-reduction criterion,
  subsampling with `max_grae` and `drop_lam`), `SGRAE` (Siamese pairwise loss);
* `src/src/data/base.py` — `BaseDataset.__getitem__`.

Real-valued tensors are modelled over `ℚ`; a 2-D tensor is a list of rows.
-/

/-! ## Loss functions -/

/-- Sum of squared componentwise differences of two rows (vectors). -/
def sqErrRow : List ℚ → List ℚ → ℚ
  | a :: as, b :: bs => (a - b) ^ 2 + sqErrRow as bs
  | _, _ => 0

/-- Sum of squared differences over a whole batch (2-D tensor).
This is `nn.MSELoss(reduction='sum')`, the criterion built in
`src/src/models/models.py` line 117 (`AE.__init__`). -/
def sqErrSum : List (List ℚ) → List (List ℚ) → ℚ
  | r :: rs, t :: ts => sqErrRow r t + sqErrSum rs ts
  | _, _ => 0

/-- Total number of scalar entries of a 2-D tensor (`Tensor.numel`). -/
def numel (x : List (List ℚ)) : ℚ := ((x.map List.length).sum : ℕ)

/-- Mean of squared differences over all entries.
This is `nn.MSELoss(reduction='mean')`, the criterion built in
`grae/models/grae_models.py` line 82 (`AE.__init__`). -/
def mseMean (x y : List (List ℚ)) : ℚ := sqErrSum x y / numel x

/-- Row lookup `target_embedding[idx]`: fancy indexing of a 2-D tensor by a
list of sample indices. -/
def targetRows (target : List (List ℚ)) (idx : List ℕ) : List (List ℚ) :=
  idx.map fun i => target.getD i []

/-- `AE.compute_loss` of `grae/models/grae_models.py` (lines 214-225):
plain reconstruction loss `self.criterion(x, x_hat)` with mean reduction. -/
def aeComputeLoss (x xHat : List (List ℚ)) : ℚ := mseMean x xHat

/-- `GRAEBase.compute_loss` of `grae/models/grae_models.py` (lines 406-421):
`criterion(x, x_hat) + lam * criterion(z, target_embedding[idx])` when
`lam > 0`, else `criterion(x, x_hat)`; the criterion is mean-reduction MSE. -/
def graeComputeLoss (lam : ℚ) (x xHat z target : List (List ℚ))
    (idx : List ℕ) : ℚ :=
  if 0 < lam then mseMean x xHat + lam * mseMean z (targetRows target idx)
  else mseMean x xHat

/-- `GRAE.apply_loss` of `src/src/models/models.py` (lines 247-253): same
branch structure, but the criterion there is `nn.MSELoss(reduction='sum')`. -/
def srcGraeApplyLoss (lam : ℚ) (x xHat z target : List (List ℚ))
    (idx : List ℕ) : ℚ :=
  if 0 < lam then sqErrSum x xHat + lam * sqErrSum z (targetRows target idx)
  else sqErrSum x xHat

/-! ## Siamese variant (`SGRAE.apply_loss`, `src/src/models/models.py` 279-297)

Torch subtraction of two 2-D tensors requires equal leading dimensions or a
singleton one (broadcasting); otherwise it raises a `RuntimeError`, which we
model as `none`. -/

/-- Componentwise difference of two rows. -/
def rowSub (a b : List ℚ) : List ℚ := List.zipWith (fun p q => p - q) a b

/-- Broadcasting subtraction of two 2-D tensors along the leading (row)
dimension; `none` models the torch `RuntimeError` on a shape mismatch. -/
def bcastSub2 (a b : List (List ℚ)) : Option (List (List ℚ)) :=
  if a.length = b.length then some (List.zipWith rowSub a b)
  else if a.length = 1 then some (b.map fun r => rowSub a.headI r)
  else if b.length = 1 then some (a.map fun r => rowSub r b.headI)
  else none

/-- Broadcasting subtraction of two 1-D tensors. -/
def bcastSub1 (a b : List ℚ) : Option (List ℚ) :=
  if a.length = b.length then some (List.zipWith (fun p q => p - q) a b)
  else if a.length = 1 then some (b.map fun q => a.headI - q)
  else if b.length = 1 then some (a.map fun q => q - b.headI)
  else none

/-- `SGRAE.apply_loss`: with `lam > 0`, `half = n // 2`,
`batch_1 = idx[:half]`, `batch_2 = idx[half:2*half]`,
`d_z = torch.norm(z[:half] - z[half:], p=2, dim=1)` (note: `z[half:]`, not
`z[half:2*half]`), `d = (d_z - d_mx[batch_1, batch_2]) ** 2`,
`loss = criterion(x, x_hat) + lam * sum(d)` with sum-reduction criterion.
`nrm` abstracts the per-row Euclidean norm (irrational over `ℚ`); `dmx` is
the precomputed pairwise potential-distance matrix. -/
def sgraeApplyLoss (nrm : List ℚ → ℚ) (lam : ℚ) (x xHat z : List (List ℚ))
    (dmx : ℕ → ℕ → ℚ) (idx : List ℕ) : Option ℚ :=
  if 0 < lam then
    let half := x.length / 2
    let batch1 := idx.take half
    let batch2 := (idx.drop half).take half
    match bcastSub2 (z.take half) (z.drop half) with
    | none => none
    | some diff =>
      let dz := diff.map nrm
      let dref := (batch1.zip batch2).map fun p => dmx p.1 p.2
      match bcastSub1 dz dref with
      | none => none
      | some d => some (sqErrSum x xHat + lam * (d.map fun q => q ^ 2).sum)
  else some (sqErrSum x xHat)

/-! ## GRAE subsampling (`GRAE.fit`, `src/src/models/models.py` 221-245) -/

/-- One call to the inherited `AE.fit` training loop: dataset size, the value
of `self.lam` during the call, and the number of epochs run. -/
structure GraePhase where
  size : ℕ
  lam : ℚ
  nEpochs : ℕ
deriving DecidableEq, Repr

/-- Modelled from the spec: `BaseDataset.subset(k)` is not under `src/` (only
its caller `GRAE.fit` is). Per the Dataset contract it "supports a `subset(k)`
operation returning a fixed-size (e.g., uniformly sampled) sub-dataset
preserving original indices", so the subsample has exactly `k` samples;
datasets are modelled by their length. -/
def subsetLen (k : ℕ) : ℕ := k

/-- `self.drop_lam = int(drop_lam * self.epochs) if drop_lam is not None else
self.epochs` (`GRAE.__init__`, line 215). -/
def graeDropLam (dropLam : Option ℚ) (epochs : ℕ) : ℕ :=
  match dropLam with
  | some r => (⌊r * (epochs : ℚ)⌋).toNat
  | none => epochs

/-- Size of `grae_data` in `GRAE.fit` (lines 222-228): `X.subset(max_grae)`
when `max_grae is not None and len(X) > max_grae`, else the whole dataset. -/
def graeEmbedLen (lenX : ℕ) (maxGrae : Option ℕ) : ℕ :=
  match maxGrae with
  | some m => if m < lenX then subsetLen m else lenX
  | none => lenX

/-- `GRAE.fit`: returns the number of rows of the reference embedding
(`embedder.fit_transform(grae_data)` has one row per sample of `grae_data`)
and the list of training phases. The first phase trains on `grae_data` with
the configured `lam` for `drop_lam` epochs, and when `drop_lam < epochs` a
second phase sets `lam = 0` and trains on the full dataset for the remaining
epochs (lines 230-245). -/
def graeFit (lenX : ℕ) (maxGrae : Option ℕ) (lam : ℚ) (dropLam : Option ℚ)
    (epochs : ℕ) : ℕ × List GraePhase :=
  (graeEmbedLen lenX maxGrae,
    if graeDropLam dropLam epochs < epochs then
      [⟨graeEmbedLen lenX maxGrae, lam, graeDropLam dropLam epochs⟩,
       ⟨lenX, 0, epochs - graeDropLam dropLam epochs⟩]
    else [⟨graeEmbedLen lenX maxGrae, lam, epochs⟩])

/-- Flatten a phase list into the per-epoch schedule: for each epoch, the
dataset size trained on and the regularization weight in force. -/
def phaseSchedule (ps : List GraePhase) : List (ℕ × ℚ) :=
  (ps.map fun p => List.replicate p.nEpochs (p.size, p.lam)).flatten

/-! ## Datasets (`BaseDataset`, `src/src/data/base.py` 42-66) -/

/-- A `BaseDataset` after the train/test split: feature rows and targets. -/
structure BaseDatasetM where
  data : List (List ℚ)
  targets : List ℚ

/-- Construction of a `BaseDataset` from pre-split arrays `x`, `y` and the
row selection `sel` produced by `get_split` (`train_idx` or `test_idx`):
`self.data = x[sel]`, `self.targets = y[sel]`. -/
def mkBaseDataset (x : List (List ℚ)) (y : List ℚ) (sel : List ℕ) :
    BaseDatasetM :=
  ⟨sel.map (fun i => x.getD i []), sel.map (fun i => y.getD i 0)⟩

/-- `BaseDataset.__getitem__`: `return self.data[index], self.targets[index],
index` (lines 55-56). -/
def getItem (d : BaseDatasetM) (i : ℕ) : List ℚ × ℚ × ℕ :=
  (d.data.getD i [], d.targets.getD i 0, i)

/-! ## The `AE.fit` training loop of `grae/models/grae_models.py`

`AE.fit` (lines 129-187) runs `log_metrics(0)`, then for each epoch
`1..epochs`: the mini-batch pass, `log_metrics(epoch)` (which runs
`log_metrics_val`, lines 271-291), `end_epoch(epoch)` (a no-op for `AE`,
the lambda-relaxation rule of `GRAEBase.end_epoch`, lines 456-477, for GRAE
models), and the break check `early_stopping_count == patience`.  At the end
it loads and removes `checkpoint.pt` if that file exists (lines 182-187).

Model parameters are tracked symbolically by the epoch that produced them:
the checkpoint records the epoch at which `save` was called.  Validation
losses are an arbitrary function of the epoch.  The persistent attributes
set in `AE.__init__` and mutated (never reset) by `fit` are `FitState`. -/

/-- Persistent training state held on the model object: `current_loss_min`
(`none` models `np.inf`), `early_stopping_count`, the checkpoint file at
`write_path` (`none` = no file; `some e` = parameters checkpointed at epoch
`e`), and `self.lam` (inert for plain `AE`). -/
structure FitState where
  lossMin : Option ℚ
  count : ℕ
  ckpt : Option ℕ
  lam : ℚ
deriving DecidableEq, Repr

/-- Fit-call configuration: epoch budget, early-stopping patience, whether
the `GRAEBase` relaxation hook is active (`relax` and being a GRAE model),
and the validation loss per epoch (`none` models `data_val is None`). -/
structure FitCfg where
  epochs : ℕ
  patience : ℕ
  relax : Bool
  val : Option (ℕ → ℚ)

/-- Comparison against the running minimum; `none` is `np.inf`, so anything
improves on it. -/
def ltMin (x : ℚ) : Option ℚ → Bool
  | none => true
  | some m => decide (x < m)

/-- `AE.log_metrics_val` (lines 271-291): with a validation split, compare
`val_mse` with `current_loss_min`; on improvement reset the counter, update
the minimum and checkpoint the current parameters (epoch `e`); otherwise
increment the counter.  Without a validation split, do nothing. -/
def valStep (cfg : FitCfg) (e : ℕ) (s : FitState) : FitState :=
  match cfg.val with
  | none => s
  | some v =>
    if ltMin (v e) s.lossMin then
      { s with lossMin := some (v e), count := 0, ckpt := some e }
    else
      { s with count := s.count + 1 }

/-- `GRAEBase.end_epoch` (lines 456-477): if `relax` and `lam > 0` and
`early_stopping_count == int(patience / 2)`, set `lam = 0`.  For plain `AE`
(`end_epoch` is `pass`) take `relax = false`. -/
def endEpochStep (cfg : FitCfg) (s : FitState) : FitState :=
  if cfg.relax = true ∧ 0 < s.lam ∧ s.count = cfg.patience / 2 then
    { s with lam := 0 }
  else s

/-- The epoch loop of `AE.fit` (lines 165-180), processing epochs
`e, e+1, ...` while `fuel` remains: validation metrics, `end_epoch`, then
`break` when `early_stopping_count == patience`.  Returns the state at exit
together with the last epoch whose body ran. -/
def fitLoop (cfg : FitCfg) : ℕ → ℕ → FitState → FitState × ℕ
  | e, 0, s => (s, e - 1)
  | e, fuel + 1, s =>
    if (endEpochStep cfg (valStep cfg e s)).count = cfg.patience then
      (endEpochStep cfg (valStep cfg e s), e)
    else fitLoop cfg (e + 1) fuel (endEpochStep cfg (valStep cfg e s))

/-- A whole `fit` call up to the checkpoint-restoration epilogue:
`log_metrics(0)` before the loop (line 163), then the epoch loop over the
budget `1..epochs`. -/
def fitRun (cfg : FitCfg) (s : FitState) : FitState × ℕ :=
  fitLoop cfg 1 cfg.epochs (valStep cfg 0 s)

/-- The epilogue of `AE.fit` (lines 182-187): if the checkpoint file exists,
the parameters are replaced by the checkpointed ones; otherwise the model
keeps the weights of the last epoch run.  Result: the epoch whose parameters
the model holds after `fit` returns. -/
def fitParamsEpoch (cfg : FitCfg) (s : FitState) : ℕ :=
  match (fitRun cfg s).1.ckpt with
  | some e => e
  | none => (fitRun cfg s).2

/-- Persistent attributes after `fit` returns: the loop-final state, with
the checkpoint file removed (`os.remove`, line 187) when it existed. -/
def fitPersist (cfg : FitCfg) (s : FitState) : FitState :=
  { (fitRun cfg s).1 with ckpt := none }

/-- `AE.__init__` (lines 89-95): `current_loss_min = np.inf`,
`early_stopping_count = 0`, no checkpoint file; `lam` is the `GRAEBase`
regularization factor (unused by plain `AE`). -/
def aeInitState (lam : ℚ) : FitState :=
  { lossMin := none, count := 0, ckpt := none, lam := lam }

/-- Pure per-epoch trace of the training state, ignoring the break: state
after epoch `e`'s metrics (and, for `e ≥ 1`, its `end_epoch` hook).  The
states the loop actually visits are a prefix of this trace. -/
def chainState (cfg : FitCfg) (s : FitState) : ℕ → FitState
  | 0 => valStep cfg 0 s
  | e + 1 => endEpochStep cfg (valStep cfg (e + 1) (chainState cfg s e))

/-- Running minimum seen just before epoch `e`'s validation loss is
compared. -/
def preMin (cfg : FitCfg) (s : FitState) : ℕ → Option ℚ
  | 0 => s.lossMin
  | e + 1 => (chainState cfg s e).lossMin

/-- Whether epoch `e`'s validation loss improves on the running minimum
(always `false` without a validation split). -/
def improvesB (cfg : FitCfg) (s : FitState) (e : ℕ) : Bool :=
  match cfg.val with
  | none => false
  | some v => ltMin (v e) (preMin cfg s e)

/-- A validation-loss sequence that is constant: it improves on `np.inf` at
epoch 0 and never again. -/
def constValSeq : ℕ → ℚ := fun _ => 1

/-- A validation-loss sequence improving at epochs 0 and 1, then flat. -/
def twoStepValSeq : ℕ → ℚ := fun e => if e = 0 then 2 else 1

/-- A validation-loss sequence improving at epochs 0, 1 and 2, then flat. -/
def threeStepValSeq : ℕ → ℚ :=
  fun e => if e = 0 then 3 else if e = 1 then 2 else 1

/-! ## Helper lemmas about the training step functions -/

theorem endEpoch_count (cfg : FitCfg) (s : FitState) :
    (endEpochStep cfg s).count = s.count := by
  unfold endEpochStep; split <;> rfl

theorem endEpoch_ckpt (cfg : FitCfg) (s : FitState) :
    (endEpochStep cfg s).ckpt = s.ckpt := by
  unfold endEpochStep; split <;> rfl

theorem endEpoch_lossMin (cfg : FitCfg) (s : FitState) :
    (endEpochStep cfg s).lossMin = s.lossMin := by
  unfold endEpochStep; split <;> rfl

theorem valStep_lam (cfg : FitCfg) (e : ℕ) (s : FitState) :
    (valStep cfg e s).lam = s.lam := by
  unfold valStep
  rcases cfg.val with _ | v
  · rfl
  · dsimp only; split <;> rfl

theorem endEpoch_lam_zero (cfg : FitCfg) (s : FitState) (h : s.lam = 0) :
    (endEpochStep cfg s).lam = 0 := by
  unfold endEpochStep; split <;> simp [h]

theorem endEpoch_lam_keep (cfg : FitCfg) (s : FitState)
    (h : s.count ≠ cfg.patience / 2) : (endEpochStep cfg s).lam = s.lam := by
  unfold endEpochStep
  rw [if_neg]
  intro hc
  exact h hc.2.2

theorem endEpoch_fire (cfg : FitCfg) (s : FitState) (hr : cfg.relax = true)
    (hl : 0 < s.lam) (hc : s.count = cfg.patience / 2) :
    (endEpochStep cfg s).lam = 0 := by
  unfold endEpochStep
  rw [if_pos ⟨hr, hl, hc⟩]

theorem valStep_improve (cfg : FitCfg) (v : ℕ → ℚ) (e : ℕ) (s : FitState)
    (hv : cfg.val = some v) (h : ltMin (v e) s.lossMin = true) :
    valStep cfg e s =
      { s with lossMin := some (v e), count := 0, ckpt := some e } := by
  unfold valStep
  rw [hv]
  simp only [h, if_true]

theorem valStep_noimprove (cfg : FitCfg) (v : ℕ → ℚ) (e : ℕ) (s : FitState)
    (hv : cfg.val = some v) (h : ltMin (v e) s.lossMin = false) :
    valStep cfg e s = { s with count := s.count + 1 } := by
  unfold valStep
  rw [hv]
  simp only [h, Bool.false_eq_true, if_false]

theorem valStep_none (cfg : FitCfg) (e : ℕ) (s : FitState)
    (hv : cfg.val = none) : valStep cfg e s = s := by
  unfold valStep; rw [hv]

/-! ## Relating the epoch loop to the pure trace -/

theorem chain_succ_eq (cfg : FitCfg) (s : FitState) (a : ℕ) :
    endEpochStep cfg (valStep cfg (a + 1) (chainState cfg s a)) =
      chainState cfg s (a + 1) := rfl

/-- As long as no visited state triggers the break, the loop walks down the
pure trace. -/
theorem loop_advance (cfg : FitCfg) (s : FitState) :
    ∀ d a fuel : ℕ,
      (∀ j, j < a + d + 1 → a < j →
        (chainState cfg s j).count ≠ cfg.patience) →
      fitLoop cfg (a + 1) (d + fuel) (chainState cfg s a) =
        fitLoop cfg (a + d + 1) fuel (chainState cfg s (a + d)) := by
  intro d
  induction d with
  | zero => intro a fuel _; simp
  | succ d ih =>
    intro a fuel h
    have e1 : d + 1 + fuel = d + fuel + 1 := by omega
    rw [e1]
    simp only [fitLoop]
    rw [chain_succ_eq cfg s a]
    rw [if_neg (h (a + 1) (by omega) (by omega))]
    have hrec := ih (a + 1) fuel (fun j hj1 hj2 => h j (by omega) (by omega))
    have e2 : a + 1 + d + 1 = a + (d + 1) + 1 := by omega
    have e3 : a + 1 + d = a + (d + 1) := by omega
    rw [e2, e3] at hrec
    exact hrec

/-- When the state after epoch `a + 1` has counter equal to the patience,
the loop breaks at epoch `a + 1`. -/
theorem loop_stop (cfg : FitCfg) (s : FitState) (a fuel : ℕ)
    (h : (chainState cfg s (a + 1)).count = cfg.patience) :
    fitLoop cfg (a + 1) (fuel + 1) (chainState cfg s a) =
      (chainState cfg s (a + 1), a + 1) := by
  simp only [fitLoop]
  rw [chain_succ_eq cfg s a, if_pos h]

/-- The state and epoch the loop exits with always lie on the pure trace. -/
theorem loop_is_chain (cfg : FitCfg) (s : FitState) :
    ∀ fuel a, ∃ m, a ≤ m ∧
      fitLoop cfg (a + 1) fuel (chainState cfg s a) = (chainState cfg s m, m) := by
  intro fuel
  induction fuel with
  | zero => intro a; exact ⟨a, le_refl a, by simp [fitLoop]⟩
  | succ fuel ih =>
    intro a
    simp only [fitLoop]
    rw [chain_succ_eq cfg s a]
    by_cases hc : (chainState cfg s (a + 1)).count = cfg.patience
    · exact ⟨a + 1, by omega, by rw [if_pos hc]⟩
    · obtain ⟨m, hm1, hm2⟩ := ih (a + 1)
      exact ⟨m, by omega, by rw [if_neg hc]; exact hm2⟩

theorem fitRun_is_chain (cfg : FitCfg) (s : FitState) :
    ∃ m, fitRun cfg s = (chainState cfg s m, m) := by
  obtain ⟨m, _, h⟩ := loop_is_chain cfg s cfg.epochs 0
  exact ⟨m, h⟩

/-- Fields of the trace at an epoch whose validation loss improves on the
running minimum. -/
theorem chain_improve (cfg : FitCfg) (s : FitState) (v : ℕ → ℚ) (k : ℕ)
    (hv : cfg.val = some v) (Himp : improvesB cfg s k = true) :
    (chainState cfg s k).count = 0 ∧ (chainState cfg s k).ckpt = some k ∧
      (chainState cfg s k).lossMin = some (v k) := by
  have hlt : ltMin (v k) (preMin cfg s k) = true := by
    unfold improvesB at Himp; rw [hv] at Himp; exact Himp
  cases k with
  | zero =>
    have hch : chainState cfg s 0 = valStep cfg 0 s := rfl
    have hval := valStep_improve cfg v 0 s hv hlt
    refine ⟨?_, ?_, ?_⟩ <;> rw [hch, hval]
  | succ e =>
    have hch : chainState cfg s (e + 1) =
        endEpochStep cfg (valStep cfg (e + 1) (chainState cfg s e)) := rfl
    have hval := valStep_improve cfg v (e + 1) (chainState cfg s e) hv hlt
    refine ⟨?_, ?_, ?_⟩
    · rw [hch, endEpoch_count, hval]
    · rw [hch, endEpoch_ckpt, hval]
    · rw [hch, endEpoch_lossMin, hval]

/-- Fields of the trace at an epoch whose validation loss does not improve:
the counter increments, the checkpoint and the minimum stay. -/
theorem chain_no_improve_succ (cfg : FitCfg) (s : FitState) (v : ℕ → ℚ)
    (e : ℕ) (hv : cfg.val = some v) (h : improvesB cfg s (e + 1) = false) :
    (chainState cfg s (e + 1)).count = (chainState cfg s e).count + 1 ∧
      (chainState cfg s (e + 1)).ckpt = (chainState cfg s e).ckpt ∧
      (chainState cfg s (e + 1)).lossMin = (chainState cfg s e).lossMin := by
  have hlt : ltMin (v (e + 1)) (chainState cfg s e).lossMin = false := by
    unfold improvesB at h; rw [hv] at h; exact h
  have hch : chainState cfg s (e + 1) =
      endEpochStep cfg (valStep cfg (e + 1) (chainState cfg s e)) := rfl
  have hval := valStep_noimprove cfg v (e + 1) (chainState cfg s e) hv hlt
  refine ⟨?_, ?_, ?_⟩
  · rw [hch, endEpoch_count, hval]
  · rw [hch, endEpoch_ckpt, hval]
  · rw [hch, endEpoch_lossMin, hval]

/-- After a last improvement at epoch `k`, the counter counts the epochs
elapsed since `k`, the checkpoint stays at `k`, and the minimum stays. -/
theorem chain_after_improve (cfg : FitCfg) (s : FitState) (v : ℕ → ℚ) (k : ℕ)
    (hv : cfg.val = some v) (Himp : improvesB cfg s k = true)
    (Hnever : ∀ e, e < cfg.epochs + 1 → k < e → improvesB cfg s e = false) :
    ∀ j, k + j ≤ cfg.epochs →
      (chainState cfg s (k + j)).count = j ∧
      (chainState cfg s (k + j)).ckpt = some k ∧
      (chainState cfg s (k + j)).lossMin = some (v k) := by
  intro j
  induction j with
  | zero => intro _; simpa using chain_improve cfg s v k hv Himp
  | succ j ih =>
    intro hle
    have hfacts := ih (by omega)
    have hni : improvesB cfg s (k + j + 1) = false :=
      Hnever (k + j + 1) (by omega) (by omega)
    have hstep := chain_no_improve_succ cfg s v (k + j) hv hni
    refine ⟨?_, ?_, ?_⟩
    · rw [show k + (j + 1) = k + j + 1 from rfl, hstep.1, hfacts.1]
    · rw [show k + (j + 1) = k + j + 1 from rfl, hstep.2.1, hfacts.2.1]
    · rw [show k + (j + 1) = k + j + 1 from rfl, hstep.2.2, hfacts.2.2]

/-- Without a validation split the loop never breaks (unless the incoming
counter already equals the patience) and the counter is never touched. -/
theorem loop_noval (cfg : FitCfg) (hv : cfg.val = none) :
    ∀ fuel a (s : FitState), s.count ≠ cfg.patience →
      (fitLoop cfg (a + 1) fuel s).2 = a + fuel ∧
      (fitLoop cfg (a + 1) fuel s).1.count = s.count := by
  intro fuel
  induction fuel with
  | zero => intro a s _; refine ⟨by simp [fitLoop], by simp [fitLoop]⟩
  | succ fuel ih =>
    intro a s h
    simp only [fitLoop]
    rw [valStep_none cfg (a + 1) s hv]
    rw [if_neg (by rw [endEpoch_count]; exact h)]
    obtain ⟨h1, h2⟩ := ih (a + 1) (endEpochStep cfg s)
      (by rw [endEpoch_count]; exact h)
    refine ⟨by rw [h1]; omega, by rw [h2, endEpoch_count]⟩

/-! ## Claim C2 -/

/-- C2, counterexample. With `patience = 0` the claim fails: the validation
loss improves at epoch `k = 0` (against `np.inf`, during the pre-loop
`log_metrics(0)` call) and never again, yet the loop runs the whole 2-epoch
budget instead of exiting by epoch `k + patience = 0`, because the
`early_stopping_count == patience` check happens only inside the loop and
the counter moves past `0` without ever equalling it again. -/
theorem c2_counterexample :
    improvesB ⟨2, 0, false, some constValSeq⟩ (aeInitState 0) 0 = true ∧
    improvesB ⟨2, 0, false, some constValSeq⟩ (aeInitState 0) 1 = false ∧
    improvesB ⟨2, 0, false, some constValSeq⟩ (aeInitState 0) 2 = false ∧
    ¬((fitRun ⟨2, 0, false, some constValSeq⟩ (aeInitState 0)).2 ≤ 0 + 0) := by
  decide

/-- C2, amended. Provided the configured patience is at least 1: for every
fit call with a validation split, if the loop reaches epoch `k`, the
validation loss improves at epoch `k` and never again within the budget,
then the loop exits no later than epoch `k + patience`, and the parameters
held after `fit` returns are exactly those checkpointed at epoch `k`. -/
theorem c2_amended (cfg : FitCfg) (s : FitState) (v : ℕ → ℚ) (k : ℕ)
    (hv : cfg.val = some v) (hp : 1 ≤ cfg.patience) (hk : k ≤ cfg.epochs)
    (Hreach : ∀ j, j < k → 1 ≤ j →
      (chainState cfg s j).count ≠ cfg.patience)
    (Himp : improvesB cfg s k = true)
    (Hnever : ∀ e, e < cfg.epochs + 1 → k < e → improvesB cfg s e = false) :
    (fitRun cfg s).2 ≤ k + cfg.patience ∧
    (fitRun cfg s).1.ckpt = some k ∧ fitParamsEpoch cfg s = k := by
  have facts := chain_after_improve cfg s v k hv Himp Hnever
  obtain ⟨m, hm⟩ := Nat.le.dest hk
  by_cases hcase : cfg.patience ≤ m
  · -- the loop stops at exactly `k + patience`
    have hnostop : ∀ j, j < 0 + (k + cfg.patience - 1) + 1 → 0 < j →
        (chainState cfg s j).count ≠ cfg.patience := by
      intro j hj1 hj2
      by_cases hjk : j < k
      · exact Hreach j hjk hj2
      · obtain ⟨i, hi⟩ := Nat.le.dest (le_of_not_lt hjk)
        rw [← hi, (facts i (by omega)).1]
        omega
    have hstopc :
        (chainState cfg s ((k + cfg.patience - 1) + 1)).count = cfg.patience := by
      rw [show (k + cfg.patience - 1) + 1 = k + cfg.patience from by omega]
      exact (facts cfg.patience (by omega)).1
    have hfit : fitRun cfg s =
        (chainState cfg s (k + cfg.patience), k + cfg.patience) := by
      have h1 : fitRun cfg s =
          fitLoop cfg (0 + 1) cfg.epochs (chainState cfg s 0) := rfl
      rw [h1]
      rw [show cfg.epochs = (k + cfg.patience - 1) + ((m - cfg.patience) + 1)
        from by omega]
      rw [loop_advance cfg s (k + cfg.patience - 1) 0 ((m - cfg.patience) + 1)
        hnostop]
      simp only [Nat.zero_add]
      rw [loop_stop cfg s (k + cfg.patience - 1) (m - cfg.patience) hstopc]
      rw [show (k + cfg.patience - 1) + 1 = k + cfg.patience from by omega]
    refine ⟨?_, ?_, ?_⟩
    · rw [hfit]
    · rw [hfit]; exact (facts cfg.patience (by omega)).2.1
    · unfold fitParamsEpoch
      rw [hfit, (facts cfg.patience (by omega)).2.1]
  · -- the budget runs out first, at `epochs < k + patience`
    have hnostop : ∀ j, j < 0 + cfg.epochs + 1 → 0 < j →
        (chainState cfg s j).count ≠ cfg.patience := by
      intro j hj1 hj2
      by_cases hjk : j < k
      · exact Hreach j hjk hj2
      · obtain ⟨i, hi⟩ := Nat.le.dest (le_of_not_lt hjk)
        rw [← hi, (facts i (by omega)).1]
        omega
    have hfit : fitRun cfg s = (chainState cfg s cfg.epochs, cfg.epochs) := by
      have h1 : fitRun cfg s =
          fitLoop cfg (0 + 1) (cfg.epochs + 0) (chainState cfg s 0) := rfl
      rw [h1, loop_advance cfg s cfg.epochs 0 0 hnostop]
      simp only [Nat.zero_add]
      simp [fitLoop]
    refine ⟨?_, ?_, ?_⟩
    · rw [hfit]; omega
    · rw [hfit]
      rw [show cfg.epochs = k + m from by omega]
      exact (facts m (by omega)).2.1
    · unfold fitParamsEpoch
      rw [hfit]
      rw [show cfg.epochs = k + m from by omega,
        (facts m (by omega)).2.1]

/-- C2, witness for the amended theorem: last improvement at epoch `k = 1`
with patience 2, so training stops by epoch 3 and restores the epoch-1
checkpoint. -/
theorem c2_amended_witness :
    (fitRun ⟨6, 2, false, some twoStepValSeq⟩ (aeInitState 0)).2 ≤ 1 + 2 ∧
    (fitRun ⟨6, 2, false, some twoStepValSeq⟩ (aeInitState 0)).1.ckpt =
      some 1 ∧
    fitParamsEpoch ⟨6, 2, false, some twoStepValSeq⟩ (aeInitState 0) = 1 :=
  c2_amended ⟨6, 2, false, some twoStepValSeq⟩ (aeInitState 0) twoStepValSeq 1
    rfl (by decide) (by decide) (by decide) (by decide) (by decide)

/-! ## Claim C3 -/

/-- C3. For a relax-enabled fit call with initial `lam > 0`: if `e0 ≥ 1` is
the first loop epoch at which the no-improvement counter equals
`int(patience / 2)`, then `lam` keeps its initial value strictly before
epoch `e0`, is set to zero at the end of epoch `e0`, and stays zero for
every later epoch of the trace — in particular for the state the loop exits
with.  The transition is one-shot and irreversible within the fit call. -/
theorem c3_relaxation (cfg : FitCfg) (s : FitState) (e0 : ℕ)
    (hr : cfg.relax = true) (hl : 0 < s.lam) (he : 1 ≤ e0)
    (Hc : (chainState cfg s e0).count = cfg.patience / 2)
    (Hfirst : ∀ j, j < e0 → 1 ≤ j →
      (chainState cfg s j).count ≠ cfg.patience / 2) :
    (∀ j, j < e0 → (chainState cfg s j).lam = s.lam) ∧
    (∀ j, e0 ≤ j → (chainState cfg s j).lam = 0) ∧
    (e0 ≤ (fitRun cfg s).2 → (fitRun cfg s).1.lam = 0) := by
  have lam_pre : ∀ j, j < e0 → (chainState cfg s j).lam = s.lam := by
    intro j
    induction j with
    | zero =>
      intro _
      show (valStep cfg 0 s).lam = s.lam
      exact valStep_lam cfg 0 s
    | succ j ih =>
      intro hj
      have hch : chainState cfg s (j + 1) =
          endEpochStep cfg (valStep cfg (j + 1) (chainState cfg s j)) := rfl
      have hcnt : (valStep cfg (j + 1) (chainState cfg s j)).count ≠
          cfg.patience / 2 := by
        intro hq
        apply Hfirst (j + 1) hj (by omega)
        have hcc : (chainState cfg s (j + 1)).count =
            (valStep cfg (j + 1) (chainState cfg s j)).count := by
          rw [hch]; exact endEpoch_count _ _
        exact hcc.trans hq
      rw [hch, endEpoch_lam_keep cfg _ hcnt, valStep_lam]
      exact ih (by omega)
  obtain ⟨e1, he1⟩ : ∃ e1, e0 = e1 + 1 := ⟨e0 - 1, by omega⟩
  have hfire : (chainState cfg s e0).lam = 0 := by
    rw [he1]
    have hch : chainState cfg s (e1 + 1) =
        endEpochStep cfg (valStep cfg (e1 + 1) (chainState cfg s e1)) := rfl
    rw [hch]
    apply endEpoch_fire cfg _ hr
    · rw [valStep_lam, lam_pre e1 (by omega)]
      exact hl
    · have hcc : (chainState cfg s (e1 + 1)).count =
          (valStep cfg (e1 + 1) (chainState cfg s e1)).count := by
        rw [hch]; exact endEpoch_count _ _
      rw [← hcc, ← he1]
      exact Hc
  have lam_post : ∀ d, (chainState cfg s (e0 + d)).lam = 0 := by
    intro d
    induction d with
    | zero => simpa using hfire
    | succ d ih =>
      have hch : chainState cfg s (e0 + d + 1) =
          endEpochStep cfg
            (valStep cfg (e0 + d + 1) (chainState cfg s (e0 + d))) := rfl
      rw [show e0 + (d + 1) = e0 + d + 1 from rfl, hch]
      apply endEpoch_lam_zero
      rw [valStep_lam]
      exact ih
  refine ⟨lam_pre, fun j hj => ?_, fun hrun => ?_⟩
  · obtain ⟨d, hd⟩ := Nat.le.dest hj
    rw [← hd]
    exact lam_post d
  · obtain ⟨m, hm⟩ := fitRun_is_chain cfg s
    rw [hm] at hrun ⊢
    obtain ⟨d, hd⟩ := Nat.le.dest (show e0 ≤ m from hrun)
    show (chainState cfg s m).lam = 0
    rw [← hd]
    exact lam_post d

/-- C3, witness: patience 4, relax on, initial `lam = 10`; improvements at
epochs 0-2 then none, so the counter first equals `4 / 2 = 2` at epoch 4:
`lam` is still 10 after epoch 3 and zero from epoch 4 on. -/
theorem c3_relaxation_witness :
    (chainState ⟨6, 4, true, some threeStepValSeq⟩ (aeInitState 10) 3).lam =
      10 ∧
    (chainState ⟨6, 4, true, some threeStepValSeq⟩ (aeInitState 10) 5).lam =
      0 :=
  ⟨(c3_relaxation ⟨6, 4, true, some threeStepValSeq⟩ (aeInitState 10) 4 rfl
      (by decide) (by decide) (by decide) (by decide)).1 3 (by decide),
   (c3_relaxation ⟨6, 4, true, some threeStepValSeq⟩ (aeInitState 10) 4 rfl
      (by decide) (by decide) (by decide) (by decide)).2.1 5 (by decide)⟩

/-! ## Claim C5 -/

/-- C5, counterexample. The first fit call (4-epoch budget, patience 2,
constant validation loss) early-stops at epoch 2 and leaves
`current_loss_min = 1` and `early_stopping_count = 2` on the instance; a
second fit call therefore does not begin with the fresh values
(`∞`, `0`) the claim asserts — observably, it runs its whole 4-epoch budget
instead of early-stopping at epoch 2 the way a fresh-state run does. -/
theorem c5_counterexample :
    (fitRun ⟨4, 2, false, some constValSeq⟩ (aeInitState 0)).2 = 2 ∧
    (fitPersist ⟨4, 2, false, some constValSeq⟩ (aeInitState 0)).count = 2 ∧
    (fitPersist ⟨4, 2, false, some constValSeq⟩ (aeInitState 0)).lossMin =
      some 1 ∧
    ¬((fitPersist ⟨4, 2, false, some constValSeq⟩ (aeInitState 0)).count = 0 ∧
      (fitPersist ⟨4, 2, false, some constValSeq⟩
        (aeInitState 0)).lossMin = none) ∧
    (fitRun ⟨4, 2, false, some constValSeq⟩
      (fitPersist ⟨4, 2, false, some constValSeq⟩ (aeInitState 0))).2 = 4 := by
  decide

/-- C5, amended. `AE.__init__` initializes the training state (minimum loss
to `np.inf`, counter to 0), but `fit` does not reset it: a fit call starts
from whatever persistent state the instance holds.  In particular, when the
inherited minimum is never beaten and the inherited counter is already at
least the patience, the equality-based stop check never fires: the call
runs its full epoch budget, never checkpoints, and leaves the counter at
`inherited + epochs + 1`. -/
theorem c5_amended (lam0 : ℚ) (cfg : FitCfg) (s : FitState) (v : ℕ → ℚ)
    (m : ℚ) (hv : cfg.val = some v) (hm : s.lossMin = some m)
    (hc : cfg.patience ≤ s.count)
    (hnb : ∀ e, e < cfg.epochs + 1 → ltMin (v e) (some m) = false) :
    (aeInitState lam0).count = 0 ∧ (aeInitState lam0).lossMin = none ∧
    (fitRun cfg s).2 = cfg.epochs ∧ (fitRun cfg s).1.ckpt = s.ckpt ∧
    (fitRun cfg s).1.count = s.count + cfg.epochs + 1 := by
  have chainfacts : ∀ j, j ≤ cfg.epochs →
      (chainState cfg s j).count = s.count + j + 1 ∧
      (chainState cfg s j).ckpt = s.ckpt ∧
      (chainState cfg s j).lossMin = some m := by
    intro j
    induction j with
    | zero =>
      intro _
      have hlt : ltMin (v 0) s.lossMin = false := by
        rw [hm]; exact hnb 0 (by omega)
      have hval := valStep_noimprove cfg v 0 s hv hlt
      have hch : chainState cfg s 0 = valStep cfg 0 s := rfl
      refine ⟨?_, ?_, ?_⟩
      · rw [hch, hval]
      · rw [hch, hval]
      · rw [hch, hval]
        exact hm
    | succ j ih =>
      intro hj
      have hfacts := ih (by omega)
      have hlt : ltMin (v (j + 1)) (chainState cfg s j).lossMin = false := by
        rw [hfacts.2.2]; exact hnb (j + 1) (by omega)
      have hval := valStep_noimprove cfg v (j + 1) (chainState cfg s j) hv hlt
      have hch : chainState cfg s (j + 1) =
          endEpochStep cfg (valStep cfg (j + 1) (chainState cfg s j)) := rfl
      refine ⟨?_, ?_, ?_⟩
      · rw [hch, endEpoch_count, hval]
        show (chainState cfg s j).count + 1 = s.count + (j + 1) + 1
        rw [hfacts.1]
        omega
      · rw [hch, endEpoch_ckpt, hval]
        exact hfacts.2.1
      · rw [hch, endEpoch_lossMin, hval]
        exact hfacts.2.2
  have hnostop : ∀ j, j < 0 + cfg.epochs + 1 → 0 < j →
      (chainState cfg s j).count ≠ cfg.patience := by
    intro j hj1 _
    rw [(chainfacts j (by omega)).1]
    omega
  have hfit : fitRun cfg s = (chainState cfg s cfg.epochs, cfg.epochs) := by
    have h1 : fitRun cfg s =
        fitLoop cfg (0 + 1) (cfg.epochs + 0) (chainState cfg s 0) := rfl
    rw [h1, loop_advance cfg s cfg.epochs 0 0 hnostop]
    simp only [Nat.zero_add]
    simp [fitLoop]
  refine ⟨rfl, rfl, ?_, ?_, ?_⟩
  · rw [hfit]
  · rw [hfit]; exact (chainfacts cfg.epochs (le_refl _)).2.1
  · rw [hfit]; exact (chainfacts cfg.epochs (le_refl _)).1

/-- C5, witness: applying the amended theorem to the persistent state the
first fit of `c5_counterexample` leaves behind. -/
theorem c5_amended_witness :
    (aeInitState 0).count = 0 ∧ (aeInitState 0).lossMin = none ∧
    (fitRun ⟨4, 2, false, some constValSeq⟩
      (fitPersist ⟨4, 2, false, some constValSeq⟩ (aeInitState 0))).2 = 4 ∧
    (fitRun ⟨4, 2, false, some constValSeq⟩
      (fitPersist ⟨4, 2, false, some constValSeq⟩
        (aeInitState 0))).1.ckpt = none ∧
    (fitRun ⟨4, 2, false, some constValSeq⟩
      (fitPersist ⟨4, 2, false, some constValSeq⟩ (aeInitState 0))).1.count =
      7 :=
  c5_amended 0 ⟨4, 2, false, some constValSeq⟩
    (fitPersist ⟨4, 2, false, some constValSeq⟩ (aeInitState 0)) constValSeq 1
    rfl (by decide) (by decide) (by decide)

/-! ## Claim C7 -/

/-- C7. At the end of every fit call: when a checkpoint exists the model's
parameters are replaced by the checkpointed ones (epoch `e`) and the on-disk
checkpoint is removed before `fit` returns; when no checkpoint exists, `fit`
completes with the in-memory final-epoch weights (the model is total — no
error path). -/
theorem c7_checkpoint_restore (cfg : FitCfg) (s : FitState) :
    (fitPersist cfg s).ckpt = none ∧
    (∀ e, (fitRun cfg s).1.ckpt = some e → fitParamsEpoch cfg s = e) ∧
    ((fitRun cfg s).1.ckpt = none →
      fitParamsEpoch cfg s = (fitRun cfg s).2) := by
  refine ⟨rfl, fun e he => ?_, fun he => ?_⟩
  · unfold fitParamsEpoch
    rw [he]
  · unfold fitParamsEpoch
    rw [he]

/-- C7, witness: a no-validation run has no checkpoint and keeps the final
epoch's weights; a run that checkpointed at epoch 0 restores epoch 0. -/
theorem c7_checkpoint_restore_witness :
    fitParamsEpoch ⟨1, 5, false, none⟩ (aeInitState 0) = 1 ∧
    fitParamsEpoch ⟨4, 2, false, some constValSeq⟩ (aeInitState 0) = 0 :=
  ⟨(c7_checkpoint_restore ⟨1, 5, false, none⟩ (aeInitState 0)).2.2
      (by decide),
   (c7_checkpoint_restore ⟨4, 2, false, some constValSeq⟩
      (aeInitState 0)).2.1 0 (by decide)⟩

/-! ## Claim C8 -/

/-- C8, counterexample. With `patience = 0` and no validation split, the
counter (stuck at its initial 0) equals the patience at the first in-loop
check, so a 2-epoch budget stops after epoch 1 — the loop does not execute
the configured number of epochs. -/
theorem c8_counterexample :
    (fitRun ⟨2, 0, false, none⟩ (aeInitState 0)).2 = 1 ∧ (1 : ℕ) ≠ 2 := by
  decide

/-- C8, amended. Provided the configured patience is at least 1: for every
fit call of a model constructed without a validation split (`data_val is
None`, hence counter 0), the early-stopping counter is never incremented,
no loss-based stop is forced, and the epoch loop runs exactly the
configured number of epochs. -/
theorem c8_amended (cfg : FitCfg) (s : FitState) (hv : cfg.val = none)
    (hp : 1 ≤ cfg.patience) (hc : s.count = 0) :
    (fitRun cfg s).2 = cfg.epochs ∧ (fitRun cfg s).1.count = 0 := by
  have h0 : valStep cfg 0 s = s := valStep_none cfg 0 s hv
  have h := loop_noval cfg hv cfg.epochs 0 s (by omega)
  simp only [Nat.zero_add] at h
  have h1 : fitRun cfg s = fitLoop cfg 1 cfg.epochs s := by
    unfold fitRun
    rw [h0]
  rw [h1, h.1, h.2]
  exact ⟨rfl, hc⟩

/-- C8, witness: three epochs, patience 2, no validation split. -/
theorem c8_amended_witness :
    (fitRun ⟨3, 2, false, none⟩ (aeInitState 5)).2 = 3 ∧
    (fitRun ⟨3, 2, false, none⟩ (aeInitState 5)).1.count = 0 :=
  c8_amended ⟨3, 2, false, none⟩ (aeInitState 5) rfl (by decide) rfl

/-! ## Claim C1 -/

/-- C1, counterexample. The claim asserts that for every training batch with
`lam > 0` the applied loss is the mean-squared error plus `lam` times the
mean-squared embedding error — "a mean over batch elements, not a sum". The
`src/src/models/models.py` variant builds its criterion with
`nn.MSELoss(reduction='sum')` (line 117), so on a batch of two
one-dimensional samples with unit reconstruction error its applied loss is
`2`, not the mean-based value `1`. -/
theorem c1_counterexample :
    srcGraeApplyLoss 1 [[0], [0]] [[1], [1]] [[0], [0]] [[0], [0]] [0, 1] ≠
      mseMean [[0], [0]] [[1], [1]] +
        1 * mseMean [[0], [0]] (targetRows [[0], [0]] [0, 1]) := by
  have h1 : srcGraeApplyLoss 1 [[0], [0]] [[1], [1]] [[0], [0]] [[0], [0]]
      [0, 1] = 2 := by
    unfold srcGraeApplyLoss
    rw [if_pos (by norm_num : (0 : ℚ) < 1)]
    norm_num [sqErrSum, sqErrRow, targetRows]
  have h2 : mseMean [[0], [0]] [[1], [1]] +
      1 * mseMean [[0], [0]] (targetRows [[0], [0]] [0, 1]) = 1 := by
    norm_num [mseMean, sqErrSum, sqErrRow, numel, targetRows]
  rw [h1, h2]
  norm_num

/-- C1, amended. For every batch with `lam > 0`: in
`grae/models/grae_models.py` (`GRAEBase.compute_loss`, mean-reduction
criterion) the applied loss is the mean-squared reconstruction error plus
`lam` times the mean-squared error between the batch latents and the target
rows selected by the batch indices; in the `src/src/models/models.py`
variant (`GRAE.apply_loss`, sum-reduction criterion) both terms are sums of
squared errors over the batch, not means. -/
theorem c1_amended (lam : ℚ) (x xHat z target : List (List ℚ))
    (idx : List ℕ) (h : 0 < lam) :
    graeComputeLoss lam x xHat z target idx =
      mseMean x xHat + lam * mseMean z (targetRows target idx) ∧
    srcGraeApplyLoss lam x xHat z target idx =
      sqErrSum x xHat + lam * sqErrSum z (targetRows target idx) := by
  unfold graeComputeLoss srcGraeApplyLoss
  rw [if_pos h, if_pos h]
  exact ⟨rfl, rfl⟩

/-- C1, witness for the amended theorem at `lam = 1` and a concrete batch. -/
theorem c1_amended_witness :
    graeComputeLoss 1 [[0], [0]] [[1], [1]] [[0], [0]] [[0], [0]] [0, 1] =
      mseMean [[0], [0]] [[1], [1]] +
        1 * mseMean [[0], [0]] (targetRows [[0], [0]] [0, 1]) ∧
    srcGraeApplyLoss 1 [[0], [0]] [[1], [1]] [[0], [0]] [[0], [0]] [0, 1] =
      sqErrSum [[0], [0]] [[1], [1]] +
        1 * sqErrSum [[0], [0]] (targetRows [[0], [0]] [0, 1]) :=
  c1_amended 1 _ _ _ _ _ (by norm_num)

/-! ## Claim C9 -/

/-- C9. When the regularization weight is zero, `GRAEBase.compute_loss`
produces exactly the same loss value as the plain autoencoder's
`AE.compute_loss` (both in `grae/models/grae_models.py`): skipping the
target-embedding lookup is an optimization, not a behavior change. -/
theorem c9_lam_zero_equiv (x xHat z target : List (List ℚ)) (idx : List ℕ) :
    graeComputeLoss 0 x xHat z target idx = aeComputeLoss x xHat := by
  unfold graeComputeLoss aeComputeLoss
  rw [if_neg (lt_irrefl 0)]

/-! ## Claim C4 -/

/-- C4. The claim says an odd batch of size `n ≥ 3` with `lam > 0` succeeds
in `SGRAE.apply_loss`, with the trailing sample dropped from the pairing.
Evaluating the code at an odd batch of size 5: `half = 2`, and
`z[:2] - z[3:]` subtracts tensors of 2 and 3 rows, which torch refuses to
broadcast — the loss computation errors out (`none`) instead of dropping the
trailing sample. -/
theorem c4_shape_error :
    sgraeApplyLoss (fun r => r.sum) 1
      [[0], [1], [2], [3], [4]] [[0], [1], [2], [3], [4]]
      [[0], [1], [2], [3], [4]] (fun _ _ => 0) [0, 1, 2, 3, 4] = none := by
  decide

/-! ## Claim C6 -/

/-- C6. For a dataset larger than the configured cap, `GRAE.fit`
(`src/src/models/models.py`) computes the reference embedding from a subset
of exactly `cap` samples, trains with the geometric regularization weight
`lam` on that subset for `drop_lam` epochs, and trains with `lam = 0` on the
full dataset for the remaining epochs of the budget. -/
theorem c6_subsampling (lenX cap : ℕ) (lam : ℚ) (dropLam : Option ℚ)
    (epochs : ℕ) (hcap : cap < lenX)
    (hd : graeDropLam dropLam epochs ≤ epochs) :
    (graeFit lenX (some cap) lam dropLam epochs).1 = cap ∧
    phaseSchedule (graeFit lenX (some cap) lam dropLam epochs).2 =
      List.replicate (graeDropLam dropLam epochs) (cap, lam) ++
        List.replicate (epochs - graeDropLam dropLam epochs) (lenX, (0 : ℚ)) := by
  have hlen : graeEmbedLen lenX (some cap) = cap := by
    unfold graeEmbedLen subsetLen
    simp only [if_pos hcap]
  unfold graeFit
  rw [hlen]
  by_cases h : graeDropLam dropLam epochs < epochs
  · rw [if_pos h]
    exact ⟨rfl, by simp [phaseSchedule]⟩
  · have he : graeDropLam dropLam epochs = epochs :=
      le_antisymm hd (le_of_not_lt h)
    rw [if_neg h, he]
    simp [phaseSchedule, Nat.sub_self]

/-- C6, witness: a dataset of 5 samples, cap 3, `drop_lam = 1/2` of a
4-epoch budget. -/
theorem c6_subsampling_witness :
    (graeFit 5 (some 3) 100 (some (1 / 2)) 4).1 = 3 ∧
    phaseSchedule (graeFit 5 (some 3) 100 (some (1 / 2)) 4).2 =
      List.replicate (graeDropLam (some (1 / 2)) 4) (3, (100 : ℚ)) ++
        List.replicate (4 - graeDropLam (some (1 / 2)) 4) (5, (0 : ℚ)) :=
  c6_subsampling 5 3 100 (some (1 / 2)) 4 (by norm_num)
    (by norm_num [graeDropLam])

/-! ## Claim C10 -/

/-- C10. Indexing a `BaseDataset` at a valid position `i` returns a triple
whose third component is `i` itself, and whose data component is the sample
the split selection placed at position `i` — the index carried into each
training batch is the sample's position within the split, which is the
alignment invariant the `target_embedding[idx]` lookup relies on. -/
theorem c10_index_invariant (x : List (List ℚ)) (y : List ℚ) (sel : List ℕ)
    (i : ℕ) :
    (getItem (mkBaseDataset x y sel) i).2.2 = i ∧
    (i < sel.length →
      (getItem (mkBaseDataset x y sel) i).1 = x.getD (sel.getD i 0) []) := by
  refine ⟨rfl, fun h => ?_⟩
  unfold getItem mkBaseDataset
  simp only
  have h2 : i < (sel.map fun j => x.getD j []).length := by simpa using h
  rw [List.getD_eq_getElem _ _ h2, List.getElem_map,
    List.getD_eq_getElem sel 0 h]

/-- C10, witness at a concrete split selection. -/
theorem c10_index_invariant_witness :
    (getItem (mkBaseDataset [[5], [6], [7]] [1, 2, 3] [2, 0]) 1).2.2 = 1 ∧
    (getItem (mkBaseDataset [[5], [6], [7]] [1, 2, 3] [2, 0]) 1).1 =
      List.getD [[5], [6], [7]] (List.getD [2, 0] 1 0) [] :=
  ⟨(c10_index_invariant [[5], [6], [7]] [1, 2, 3] [2, 0] 1).1,
   (c10_index_invariant [[5], [6], [7]] [1, 2, 3] [2, 0] 1).2 (by norm_num)⟩
